import Mathlib

/-!
Shallow embedding of `nudge` (an SSE gateway library): the proxy emitter /
history broadcaster from `src/lib/makeProxyEmitter.js`, together with the
event handler layer it drives.  JavaScript strings become `String`, the
history array (`messageHistory`, a JS array written by index assignment and
read also at out-of-range / negative indices) becomes `List (Option String)`
where `none` models `undefined`; `parseInt(x, 10)` becomes an explicit
decimal-prefix parser returning a `JSNumber` — `NaN` when no digits are
found, `±Infinity` when the digit string's value reaches the IEEE-754
double overflow threshold `2^1024 - 2^970`, and the integer value
otherwise — so that the `Number.isFinite` gate in the source is modelled
on all three of its rejecting inputs.
-/

set_option maxRecDepth 4000
set_option exponentiation.threshold 1100

namespace Nudge

/-- JavaScript values as far as the library's data path needs them:
event payloads that get serialized onto the wire. -/
inductive JSValue where
  | str (s : String)
  | bool (b : Bool)
  | num (n : Int)
deriving DecidableEq, Repr

/-- Modelled from the spec: `serialize` of the FrameFormatter (§4.1), whose
implementation lives in `src/lib/makeHandler.js`, a file absent from `src/`.
JSON-style encoding: strings quoted, booleans and integers literal. -/
def serialize : JSValue → String
  | .str s => "\"" ++ s ++ "\""
  | .bool true => "true"
  | .bool false => "false"
  | .num n => toString n

/-- Modelled from the spec: `format(eventName, payload)` of the
FrameFormatter (§4.1), from the absent `src/lib/makeHandler.js`:
`"event: " + eventName + "\ndata: " + serialize(payload) + "\n\n"`. -/
def format (eventName : String) (payload : JSValue) : String :=
  "event: " ++ eventName ++ "\ndata: " ++ serialize payload ++ "\n\n"

/-- An EventSpec entry object: optional `name` override and optional
`preProcessor`.  Per the spec's design note (§9) the continuation-passing
pre-processor is represented as a function from the raw argument list to an
optional value: `none` means the continuation was never invoked (the event
is filtered out), `some v` means it was invoked with `v`. -/
structure SpecObj where
  name : Option String
  preProcessor : Option (List JSValue → Option JSValue)

/-- An EventSpec mapping value: the boolean `true`, or an object. -/
inductive EventSpec where
  | tru
  | obj (o : SpecObj)

/-- Effective SSE event name (§4.2): `spec.name` when set, else the source
event name. -/
def effectiveName (sourceEventName : String) : EventSpec → String
  | .tru => sourceEventName
  | .obj o => o.name.getD sourceEventName

/-- Modelled from the spec: the handler produced by `makeHandler` in the
absent `src/lib/makeHandler.js` (§4.2).  Applied to the source event's
argument list it yields the formatted frame to hand to the sink, or `none`
when the pre-processor filters the occurrence out.  Without a
`preProcessor` the handler takes exactly one argument and formats it;
with one, all arguments are forwarded and the continuation's value (if
invoked) is formatted. -/
def runHandler (sourceEventName : String) (spec : EventSpec)
    (args : List JSValue) : Option String :=
  match spec with
  | .tru => args.head?.map (format sourceEventName)
  | .obj o =>
    match o.preProcessor with
    | none => args.head?.map (format (effectiveName sourceEventName (.obj o)))
    | some pp => (pp args).map (format (effectiveName sourceEventName (.obj o)))

/-- The values `parseInt(x, 10)` can produce, distinguished exactly as the
`Number.isFinite` gate in the source needs them: `NaN` (no digits found),
`±Infinity` (the digit string's mathematical value rounds to an infinity),
or a finite number, carried as its exact integer value.  A JS double is
that exact value only for magnitudes below `2^53`; above it the double is
the nearest representable value.  The theorems below therefore assert the
replay behaviour for finite parsed values only where the double is exact
(magnitude at most `2^53`), or assert only that the replay is empty, which
rounding cannot affect while the history (a JS array, length below `2^32`)
is shorter than `2^53`. -/
inductive JSNumber where
  | nan
  | posInf
  | negInf
  | fin (v : Int)
deriving DecidableEq, Repr

/-- The smallest magnitude an exact mathematical integer can have and be
rounded to `±Infinity` by IEEE-754 double rounding (round to nearest, ties
to even): everything at or above the midpoint between the largest finite
double `2^1024 - 2^971` and `2^1024` overflows. -/
def overflowCutoff : Nat := 2 ^ 1024 - 2 ^ 970

/-- `parseInt(s, 10)`: skip leading whitespace, optional sign, then the
longest decimal-digit prefix.  No digits give `NaN`; a value at or beyond
the double overflow threshold gives `±Infinity` (both fail the source's
`Number.isFinite` test); otherwise the finite value. -/
def parseInt10 (s : String) : JSNumber :=
  let cs := s.data.dropWhile (fun c => c = ' ' ∨ c = '\t' ∨ c = '\n' ∨ c = '\r')
  let signed : Int × List Char :=
    match cs with
    | '-' :: r => (-1, r)
    | '+' :: r => (1, r)
    | r => (1, r)
  let ds := signed.2.takeWhile Char.isDigit
  if ds.isEmpty then .nan
  else
    let n : Nat := ds.foldl (fun acc c => acc * 10 + (c.toNat - '0'.toNat)) 0
    if overflowCutoff ≤ n then (if signed.1 < 0 then .negInf else .posInf)
    else .fin (signed.1 * n)

/-- A `data` listener on the proxy: the delivery callback of one
subscriber.  `ident` stands for function identity.  `lastEventId` models an
own `lastEventId` property on the listener function (`none` = no own
property, so `listener.hasOwnProperty('lastEventId')` is false);
`inheritedLastEventId` models a `lastEventId` property found only on the
listener's prototype chain, which `hasOwnProperty` ignores. -/
structure Listener where
  ident : Nat
  lastEventId : Option String
  inheritedLastEventId : Option String
deriving DecidableEq, Repr

/-- State of one proxy emitter: `messageHistory` (a JS array whose cells may
in principle be holes, hence `Option`), the `serverCurrentID` counter, and
the proxy's current `data` listeners in registration order. -/
structure PEState where
  messageHistory : List (Option String)
  serverCurrentID : Nat
  dataListeners : List Listener
deriving DecidableEq, Repr

/-- The fresh state built by `makeProxyEmitter`. -/
def initState : PEState := ⟨[], 0, []⟩

/-- JS array read `a[i]`: `undefined` (`none`) at negative indices, holes
and out-of-range indices. -/
def arrayGet (a : List (Option String)) (i : Int) : Option String :=
  if i < 0 then none else a.getD i.toNat none

/-- JS array write `a[i] = v`: overwrite in range, otherwise extend with
holes up to index `i`. -/
def arraySet (a : List (Option String)) (i : Nat) (v : String) :
    List (Option String) :=
  if i < a.length then a.set i (some v)
  else a ++ List.replicate (i - a.length) none ++ [some v]

/-- The replay start index computed by the `newListener` handler:
`0` unless the listener has an own `lastEventId` that `parseInt` turns into
a number passing `Number.isFinite` (true exactly on the `.fin` case — not
on `NaN` or `±Infinity`), in which case that number plus one. -/
def startEventId (l : Listener) : Int :=
  match l.lastEventId with
  | none => 0
  | some s =>
    match parseInt10 s with
    | .fin n => n + 1
    | _ => 0

/-- The values passed to the listener by the replay loop
`for (id = startEventId; id < messageHistory.length; ++id)
   listener(messageHistory[id])`. -/
def replayList (hist : List (Option String)) (start : Int) :
    List (Option String) :=
  (List.range ((hist.length - start).toNat)).map
    fun k : Nat => arrayGet hist (start + (k : Int))

/-- One delivery: which listener was called, and with what (possibly
`undefined`) value. -/
abbrev Delivery := Listener × Option String

/-- The `newListener` handler of the proxy: replays history to a listener
being attached, but only when it is attached for the `data` event. -/
def replayFor (st : PEState) (event : String) (l : Listener) : List Delivery :=
  if event = "data" then
    (replayList st.messageHistory (startEventId l)).map fun v => (l, v)
  else []

/-- Result of one step or run: the new state, the deliveries made (in
order), and the sequence IDs assigned to committed frames (in order). -/
structure StepRes where
  state : PEState
  outputs : List Delivery
  ids : List Nat
deriving Repr

/-- `writeSavingID(string)`: grab `id = serverCurrentID++`, store
`'id: ' + id + '\n' + string` in `messageHistory[id]`, and emit the same
string as a `data` event to every current listener. -/
def writeSavingID (st : PEState) (s : String) : StepRes :=
  let id := st.serverCurrentID
  let frame := "id: " ++ toString id ++ "\n" ++ s
  { state := { messageHistory := arraySet st.messageHistory id frame
               serverCurrentID := id + 1
               dataListeners := st.dataListeners }
    outputs := st.dataListeners.map fun l => (l, some frame)
    ids := [id] }

/-- The external stimuli a proxy emitter reacts to: the source emitter
firing an event, a listener being attached to the proxy (replay happens
when the event is `data`), and a listener being removed. -/
inductive Op where
  | emitSource (eventName : String) (args : List JSValue)
  | addListener (event : String) (l : Listener)
  | removeListener (l : Listener)

/-- The EventSpec mapping handed to `makeProxyEmitter` (JS object keys are
unique, so an association list read by first match). -/
abbrev Specs := List (String × EventSpec)

def lookupSpec (specs : Specs) (e : String) : Option EventSpec :=
  (specs.find? fun p => p.1 = e).map Prod.snd

/-- One reaction of the proxy emitter.  A source event runs the handler
wired for its name (if any) whose sink is `writeSavingID`; attaching a
`data` listener first triggers the `newListener` replay (Node emits
`newListener` before the listener joins the list) and then registers it;
removing a listener deletes its first occurrence. -/
def step (specs : Specs) (st : PEState) : Op → StepRes
  | .emitSource e args =>
    match lookupSpec specs e with
    | none => { state := st, outputs := [], ids := [] }
    | some spec =>
      match runHandler e spec args with
      | none => { state := st, outputs := [], ids := [] }
      | some s => writeSavingID st s
  | .addListener ev l =>
    { state := { st with dataListeners :=
        if ev = "data" then st.dataListeners ++ [l] else st.dataListeners }
      outputs := replayFor st ev l
      ids := [] }
  | .removeListener l =>
    { state := { st with dataListeners := st.dataListeners.erase l }
      outputs := []
      ids := [] }

/-- Run a sequence of stimuli, accumulating deliveries and assigned IDs. -/
def run (specs : Specs) (st : PEState) : List Op → StepRes
  | [] => { state := st, outputs := [], ids := [] }
  | op :: ops =>
    let r := step specs st op
    let r' := run specs r.state ops
    { state := r'.state, outputs := r.outputs ++ r'.outputs, ids := r.ids ++ r'.ids }

/-- The deliveries to `l` contained in a delivery list. -/
def outputsTo (ds : List Delivery) (l : Listener) : List (Option String) :=
  (ds.filter fun p => p.1 = l).map Prod.snd

/-- The deliveries a given listener receives over a run from the fresh
proxy state. -/
def deliveriesTo (specs : Specs) (tr : List Op) (l : Listener) :
    List (Option String) :=
  outputsTo (run specs initState tr).outputs l

/-- A history with no holes whose length matches the ID counter — the shape
every reachable state has. -/
def goodState (st : PEState) : Prop :=
  st.serverCurrentID = st.messageHistory.length ∧
    ∀ v ∈ st.messageHistory, v.isSome

instance : DecidablePred goodState := fun st => by
  unfold goodState; infer_instance

/-! ### List helper lemmas -/

theorem range_map_getD {α : Type} (d : α) :
    ∀ xs : List α, (List.range xs.length).map (fun k => xs.getD k d) = xs := by
  intro xs
  induction xs with
  | nil => rfl
  | cons x xs ih =>
    rw [List.length_cons, List.range_succ_eq_map, List.map_cons, List.map_map]
    have h2 : (List.range xs.length).map ((fun k => (x :: xs).getD k d) ∘ Nat.succ)
        = (List.range xs.length).map (fun k => xs.getD k d) :=
      List.map_congr_left fun k _ => List.getD_cons_succ
    rw [h2, ih]
    rfl

theorem range_map_getD_drop {α : Type} (d : α) :
    ∀ (n : Nat) (xs : List α),
      (List.range (xs.length - n)).map (fun k => xs.getD (n + k) d) = xs.drop n := by
  intro n
  induction n with
  | zero =>
    intro xs
    simpa using range_map_getD d xs
  | succ m ih =>
    intro xs
    cases xs with
    | nil => simp
    | cons x xs =>
      rw [List.length_cons, Nat.succ_sub_succ, List.drop_succ_cons, ← ih xs]
      refine List.map_congr_left fun k _ => ?_
      show (x :: xs).getD (m + 1 + k) d = xs.getD (m + k) d
      rw [Nat.add_right_comm]
      exact List.getD_cons_succ

theorem getD_set_self {α : Type} :
    ∀ (a : List α) (i : Nat) (v d : α), i < a.length → (a.set i v).getD i d = v := by
  intro a
  induction a with
  | nil => intro i v d h; exact absurd h (by simp)
  | cons x xs ih =>
    intro i v d h
    cases i with
    | zero => rfl
    | succ m =>
      rw [List.set_cons_succ, List.getD_cons_succ]
      exact ih m v d (by simpa using h)

theorem getD_concat_length {α : Type} :
    ∀ (xs : List α) (v d : α), (xs ++ [v]).getD xs.length d = v := by
  intro xs
  induction xs with
  | nil => intro v d; rfl
  | cons x xs ih =>
    intro v d
    rw [List.cons_append, List.length_cons, List.getD_cons_succ]
    exact ih v d

/-! ### Array / replay lemmas -/

theorem arrayGet_arraySet (a : List (Option String)) (i : Nat) (v : String) :
    arrayGet (arraySet a i v) i = some v := by
  unfold arrayGet arraySet
  rw [if_neg (by omega : ¬ ((i : Int) < 0))]
  have hi : (i : Int).toNat = i := Int.toNat_natCast i
  rw [hi]
  by_cases h : i < a.length
  · rw [if_pos h]
    exact getD_set_self a i (some v) none h
  · rw [if_neg h]
    have hlen : i = (a ++ List.replicate (i - a.length) none).length := by
      rw [List.length_append, List.length_replicate]; omega
    have hc := getD_concat_length (a ++ List.replicate (i - a.length) none)
      (some v) (none : Option String)
    rwa [← hlen] at hc

/-- Appending at the current length (the only case that arises in reachable
states, where `serverCurrentID = messageHistory.length`). -/
theorem arraySet_length (a : List (Option String)) (v : String) :
    arraySet a a.length v = a ++ [some v] := by
  unfold arraySet
  rw [if_neg (lt_irrefl _)]
  simp

/-- The replay loop with a non-negative start index delivers exactly the
suffix of history from that index on. -/
theorem replayList_of_nonneg (hist : List (Option String)) (start : Int)
    (h : 0 ≤ start) : replayList hist start = hist.drop start.toNat := by
  unfold replayList
  have h1 : ((hist.length : Int) - start).toNat = hist.length - start.toNat := by omega
  rw [h1, ← range_map_getD_drop none start.toNat hist]
  refine List.map_congr_left fun k _ => ?_
  show arrayGet hist (start + (k : Int)) = hist.getD (start.toNat + k) none
  unfold arrayGet
  rw [if_neg (by omega : ¬ (start + (k : Int) < 0))]
  have h2 : (start + (k : Int)).toNat = start.toNat + k := by omega
  rw [h2]

theorem outputsTo_map_const (xs : List Listener) (y : Option String) (l : Listener) :
    outputsTo (xs.map fun m => (m, y)) l = List.replicate (xs.count l) y := by
  induction xs with
  | nil => rfl
  | cons m xs ih =>
    unfold outputsTo at ih ⊢
    by_cases h : m = l
    · subst h
      rw [List.map_cons, List.filter_cons, if_pos (by simp), List.map_cons, ih,
        List.count_cons_self]
      rfl
    · rw [List.map_cons, List.filter_cons, if_neg (by simpa using h),
        List.count_cons_of_ne (fun e => h e.symm)]
      exact ih

theorem outputsTo_replay (vs : List (Option String)) (l : Listener) :
    outputsTo (vs.map fun v => (l, v)) l = vs := by
  induction vs with
  | nil => rfl
  | cons v vs ih =>
    unfold outputsTo at ih ⊢
    rw [List.map_cons, List.filter_cons, if_pos (by simp), List.map_cons, ih]

theorem outputsTo_replay_ne (vs : List (Option String)) (l l' : Listener)
    (h : l ≠ l') : outputsTo (vs.map fun v => (l, v)) l' = [] := by
  induction vs with
  | nil => rfl
  | cons v vs ih =>
    unfold outputsTo at ih ⊢
    rw [List.map_cons, List.filter_cons, if_neg (by simpa using h)]
    exact ih

theorem outputsTo_append (ds ds' : List Delivery) (l : Listener) :
    outputsTo (ds ++ ds') l = outputsTo ds l ++ outputsTo ds' l := by
  unfold outputsTo
  rw [List.filter_append, List.map_append]

/-! ### Step / run characterisations -/

/-- Each step either commits nothing (IDs and counter untouched) or commits
exactly one frame under the current counter value, bumping the counter. -/
theorem step_ids_char (specs : Specs) (st : PEState) (op : Op) :
    (step specs st op).ids = [] ∧
      (step specs st op).state.serverCurrentID = st.serverCurrentID ∨
    (step specs st op).ids = [st.serverCurrentID] ∧
      (step specs st op).state.serverCurrentID = st.serverCurrentID + 1 := by
  cases op with
  | emitSource e args =>
    rcases h1 : lookupSpec specs e with _ | spec
    · simp [step, h1]
    · rcases h2 : runHandler e spec args with _ | s
      · simp [step, h1, h2]
      · simp [step, h1, h2, writeSavingID]
  | addListener ev l => exact Or.inl ⟨rfl, rfl⟩
  | removeListener l => exact Or.inl ⟨rfl, rfl⟩

/-- Along any run, the assigned IDs are the consecutive integers starting
at the initial counter value, and the counter advances by their number. -/
theorem run_ids_range' (specs : Specs) :
    ∀ (ops : List Op) (st : PEState),
      (run specs st ops).ids =
        List.range' st.serverCurrentID (run specs st ops).ids.length ∧
      (run specs st ops).state.serverCurrentID =
        st.serverCurrentID + (run specs st ops).ids.length := by
  intro ops
  induction ops with
  | nil => intro st; exact ⟨rfl, rfl⟩
  | cons op ops ih =>
    intro st
    have hrun : run specs st (op :: ops) =
        { state := (run specs (step specs st op).state ops).state
          outputs := (step specs st op).outputs ++
            (run specs (step specs st op).state ops).outputs
          ids := (step specs st op).ids ++
            (run specs (step specs st op).state ops).ids } := rfl
    rw [hrun]
    obtain ⟨hids, hctr⟩ | ⟨hids, hctr⟩ := step_ids_char specs st op <;>
      obtain ⟨ih1, ih2⟩ := ih (step specs st op).state <;>
      rw [hctr] at ih1 ih2
    · constructor
      · rw [hids, List.nil_append]
        exact ih1
      · rw [hids, List.nil_append]
        exact ih2
    · constructor
      · rw [hids]
        simp only [List.singleton_append, List.length_cons]
        rw [List.range'_succ]
        exact congrArg (st.serverCurrentID :: ·) ih1
      · rw [hids]
        simp only [List.singleton_append, List.length_cons]
        omega

/-! ### Claim theorems -/

/-- Claim C2: over any sequence of stimuli from a fresh proxy, the sequence IDs
assigned to the committed frames are exactly `0, 1, …, N-1` in commit
order (no gaps, no repeats), where `N` — the number of commits — is also
the final value of the `serverCurrentID` counter. -/
theorem monotonic_ids (specs : Specs) (tr : List Op) :
    (run specs initState tr).ids =
      List.range (run specs initState tr).ids.length ∧
    (run specs initState tr).state.serverCurrentID =
      (run specs initState tr).ids.length := by
  obtain ⟨h1, h2⟩ := run_ids_range' specs tr initState
  rw [show initState.serverCurrentID = 0 from rfl] at h1 h2
  rw [Nat.zero_add] at h2
  exact ⟨by rw [List.range_eq_range']; exact h1, h2⟩

/-- Claim C4: committing a frame string `s` while the counter stands at `id`
stores `"id: " + id + "\n" + s` (with `id` in decimal) in the history at
index `id`, delivers exactly that string to every registered listener, and
records `id` as the assigned sequence ID. -/
theorem commit_frame_format (st : PEState) (s : String) :
    arrayGet (writeSavingID st s).state.messageHistory (st.serverCurrentID : Int) =
      some ("id: " ++ toString st.serverCurrentID ++ "\n" ++ s) ∧
    (writeSavingID st s).outputs =
      st.dataListeners.map
        (fun l => (l, some ("id: " ++ toString st.serverCurrentID ++ "\n" ++ s))) ∧
    (writeSavingID st s).ids = [st.serverCurrentID] := by
  exact ⟨arrayGet_arraySet st.messageHistory st.serverCurrentID _, rfl, rfl⟩

/-- Claim C5: a source event whose name has no entry in the EventSpec mapping
produces no frame, delivers nothing, assigns no ID, and leaves the whole
proxy state (history, counter, listeners) unchanged. -/
theorem unknown_event_no_frame (specs : Specs) (st : PEState) (e : String)
    (args : List JSValue) (h : lookupSpec specs e = none) :
    step specs st (.emitSource e args) = { state := st, outputs := [], ids := [] } := by
  simp only [step, h]

/-- Claim C5 witness: emitting `"b"` when only `"a"` is configured changes
nothing. -/
theorem unknown_event_no_frame_witness :
    lookupSpec [("a", EventSpec.tru)] "b" = none ∧
    step [("a", EventSpec.tru)] initState (.emitSource "b" [.str "x"]) =
      { state := initState, outputs := [], ids := [] } :=
  ⟨rfl, unknown_event_no_frame [("a", EventSpec.tru)] initState "b" [.str "x"] rfl⟩

/-- Claim C8: attaching a listener to the proxy for any event other than `data`
triggers no replay: no deliveries are made and the state is unchanged. -/
theorem replay_only_for_data (specs : Specs) (st : PEState) (ev : String)
    (l : Listener) (h : ev ≠ "data") :
    step specs st (.addListener ev l) = { state := st, outputs := [], ids := [] } := by
  simp only [step, replayFor, if_neg h]

/-- Claim C8 witness: attaching for event `"other"` on a proxy holding one frame
replays nothing. -/
theorem replay_only_for_data_witness :
    ("other" : String) ≠ "data" ∧
    step [] ⟨[some "F0"], 1, []⟩ (.addListener "other" ⟨0, none, none⟩) =
      { state := ⟨[some "F0"], 1, []⟩, outputs := [], ids := [] } :=
  ⟨by decide, replay_only_for_data [] ⟨[some "F0"], 1, []⟩ "other" ⟨0, none, none⟩
    (by decide)⟩

/-- Claim C10: the replay start is read only from an own `lastEventId` property
of the listener: a listener without one — whatever `lastEventId` its
prototype chain might supply — receives the full history from ID 0, and is
then registered after the existing listeners. -/
theorem own_property_only (specs : Specs) (st : PEState) (ident : Nat)
    (inh : Option String) :
    (step specs st (.addListener "data" ⟨ident, none, inh⟩)).outputs =
      st.messageHistory.map (fun v => ((⟨ident, none, inh⟩ : Listener), v)) ∧
    (step specs st (.addListener "data" ⟨ident, none, inh⟩)).state =
      { st with dataListeners := st.dataListeners ++ [⟨ident, none, inh⟩] } := by
  constructor
  · show replayFor st "data" ⟨ident, none, inh⟩ = _
    unfold replayFor
    rw [if_pos rfl]
    have h0 : startEventId ⟨ident, none, inh⟩ = 0 := rfl
    rw [h0, replayList_of_nonneg st.messageHistory 0 le_rfl]
    rfl
  · show ({ st with dataListeners := if "data" = "data" then _ else _ } : PEState) = _
    rw [if_pos rfl]

/-- Claim C1: on a proxy whose history holds frames `0..k`, attaching a `data`
listener whose own `lastEventId` parses to `j` with `-1 ≤ j ≤ k` delivers
to it, synchronously during the registration step, exactly the history
entries `j+1..k` in order (each an actual frame, by `goodState`); the
listener is then registered without touching history or counter.  A later
commit reaching a state where the listener is registered once delivers the
new frame to it exactly once, and steps that commit nothing — attaching a
different listener (with its replay) or removing a listener — deliver it
nothing. -/
theorem replay_completeness (specs : Specs) (st : PEState)
    (hgood : goodState st) (k : Nat) (hk : st.messageHistory.length = k + 1)
    (l : Listener) (s : String) (hs : l.lastEventId = some s)
    (j : Int) (hj : parseInt10 s = JSNumber.fin j) (hj1 : -1 ≤ j) (hj2 : j ≤ (k : Int)) :
    (step specs st (.addListener "data" l)).outputs =
      (st.messageHistory.drop (j + 1).toNat).map (fun v => (l, v)) ∧
    (∀ v ∈ st.messageHistory.drop (j + 1).toNat, v.isSome) ∧
    (st.messageHistory.drop (j + 1).toNat).length = ((k : Int) - j).toNat ∧
    (step specs st (.addListener "data" l)).state =
      { st with dataListeners := st.dataListeners ++ [l] } ∧
    (∀ st' : PEState, st'.dataListeners.count l = 1 → ∀ s' : String,
      outputsTo (writeSavingID st' s').outputs l =
        [some ("id: " ++ toString st'.serverCurrentID ++ "\n" ++ s')]) ∧
    (∀ (st' : PEState) (ev : String) (l' : Listener), l' ≠ l →
      outputsTo (step specs st' (.addListener ev l')).outputs l = []) ∧
    (∀ (st' : PEState) (l' : Listener),
      (step specs st' (.removeListener l')).outputs = []) := by
  have hstart : startEventId l = j + 1 := by
    simp only [startEventId, hs, hj]
  refine ⟨?_, ?_, ?_, ?_, ?_, ?_, ?_⟩
  · show replayFor st "data" l = _
    unfold replayFor
    rw [if_pos rfl, hstart, replayList_of_nonneg st.messageHistory (j + 1) (by omega)]
  · intro v hv
    exact hgood.2 v (List.mem_of_mem_drop hv)
  · rw [List.length_drop, hk]
    omega
  · show ({ st with dataListeners := if "data" = "data" then _ else _ } : PEState) = _
    rw [if_pos rfl]
  · intro st' hcount s'
    show outputsTo (st'.dataListeners.map fun m =>
      (m, some ("id: " ++ toString st'.serverCurrentID ++ "\n" ++ s'))) l = _
    rw [outputsTo_map_const, hcount]
    rfl
  · intro st' ev l' hne
    show outputsTo (replayFor st' ev l') l = []
    unfold replayFor
    by_cases hev : ev = "data"
    · rw [if_pos hev]
      exact outputsTo_replay_ne _ l' l hne
    · rw [if_neg hev]
      rfl
  · intro st' l'
    rfl

/-- Claim C1 witness: two frames in history (`k = 1`), last-seen ID `"0"`
(`j = 0`): exactly the frame with ID 1 is replayed. -/
theorem replay_completeness_witness :
    goodState ⟨[some "F0", some "F1"], 2, []⟩ ∧
    (⟨[some "F0", some "F1"], 2, []⟩ : PEState).messageHistory.length = 1 + 1 ∧
    parseInt10 "0" = JSNumber.fin 0 ∧ (-1 : Int) ≤ 0 ∧ (0 : Int) ≤ ((1 : Nat) : Int) ∧
    (step [] ⟨[some "F0", some "F1"], 2, []⟩
        (.addListener "data" ⟨9, some "0", none⟩)).outputs =
      ((⟨[some "F0", some "F1"], 2, []⟩ : PEState).messageHistory.drop
          ((0 : Int) + 1).toNat).map (fun v => ((⟨9, some "0", none⟩ : Listener), v)) :=
  ⟨by decide, rfl, by decide, by decide, by decide,
    (replay_completeness [] ⟨[some "F0", some "F1"], 2, []⟩ (by decide) 1 rfl
      ⟨9, some "0", none⟩ "0" rfl 0 (by decide) (by decide) (by decide)).1⟩

/-- Modelled from the spec (§8, filter correctness): a `preProcessor` that
invokes its continuation — with its first argument — exactly when that
first argument is `true`. -/
def filterPreProcessor : List JSValue → Option JSValue
  | (.bool true) :: _ => some (.bool true)
  | _ => none

/-- The strings the sink receives, in order, when a handler is invoked once
per argument list in `calls` (occurrences the pre-processor filters out
reach the sink not at all). -/
def sinkCalls (sourceEventName : String) (spec : EventSpec)
    (calls : List (List JSValue)) : List String :=
  calls.filterMap (runHandler sourceEventName spec)

/-- Claim C7: a handler whose `preProcessor` invokes its continuation only on a
`true` first argument, driven with the call sequence
`true, false, true, false`, calls the sink exactly twice, both times with
the frame formatted from the `true` occurrence; the filtered occurrences
produce no frame. -/
theorem filter_correctness :
    sinkCalls "handlerName"
        (.obj ⟨some "customName", some filterPreProcessor⟩)
        [[.bool true], [.bool false], [.bool true], [.bool false]] =
      [format "customName" (.bool true), format "customName" (.bool true)] := by
  rfl

/-- Claim C9: at commit time every live delivery carries exactly the string just
stored in the history under the new ID, and any later replay whose start
index covers that ID delivers that same stored string again, unchanged. -/
theorem stored_equals_broadcast (st : PEState) (s : String)
    (hgood : goodState st) :
    (∀ d ∈ (writeSavingID st s).outputs,
      d.2 = arrayGet (writeSavingID st s).state.messageHistory
        (st.serverCurrentID : Int)) ∧
    (∀ l : Listener, 0 ≤ startEventId l →
      startEventId l ≤ (st.serverCurrentID : Int) →
      arrayGet (writeSavingID st s).state.messageHistory
          (st.serverCurrentID : Int) ∈
        replayList (writeSavingID st s).state.messageHistory (startEventId l)) := by
  have hstore := arrayGet_arraySet st.messageHistory st.serverCurrentID
    ("id: " ++ toString st.serverCurrentID ++ "\n" ++ s)
  constructor
  · intro d hd
    obtain ⟨m, _, rfl⟩ := List.mem_map.mp hd
    exact hstore.symm
  · intro l h0 hle
    have hhist : (writeSavingID st s).state.messageHistory =
        st.messageHistory ++
          [some ("id: " ++ toString st.serverCurrentID ++ "\n" ++ s)] := by
      show arraySet st.messageHistory st.serverCurrentID _ = _
      rw [hgood.1, arraySet_length]
    rw [replayList_of_nonneg _ _ h0, hhist]
    have hstore2 : arrayGet
        (st.messageHistory ++
          [some ("id: " ++ toString st.serverCurrentID ++ "\n" ++ s)])
        (st.serverCurrentID : Int) =
        some ("id: " ++ toString st.serverCurrentID ++ "\n" ++ s) := by
      rw [← hhist]
      exact hstore
    rw [hstore2, List.drop_append_of_le_length (by rw [← hgood.1]; omega)]
    exact List.mem_append_right _ (List.mem_singleton.mpr rfl)

/-- Claim C9 witness: with one frame stored and a subscriber registered, the
commit of a second frame broadcasts exactly the stored string, and a
replay from the start re-delivers it. -/
theorem stored_equals_broadcast_witness :
    goodState ⟨[some "F0"], 1, [⟨4, none, none⟩]⟩ ∧
    (∀ d ∈ (writeSavingID ⟨[some "F0"], 1, [⟨4, none, none⟩]⟩ "E\n\n").outputs,
      d.2 = arrayGet
        (writeSavingID ⟨[some "F0"], 1, [⟨4, none, none⟩]⟩ "E\n\n").state.messageHistory
        ((⟨[some "F0"], 1, [⟨4, none, none⟩]⟩ : PEState).serverCurrentID : Int)) :=
  ⟨by decide,
    (stored_equals_broadcast ⟨[some "F0"], 1, [⟨4, none, none⟩]⟩ "E\n\n"
      (by decide)).1⟩

/-! ### Subscriber isolation machinery -/

/-- Listener lists agreeing on the multiplicity of every listener other
than `l'`. -/
def countAgree (l' : Listener) (xs ys : List Listener) : Prop :=
  ∀ x : Listener, x ≠ l' → xs.count x = ys.count x

/-- Proxy states indistinguishable except possibly in how many times `l'`
is registered: same history, same counter, same multiplicity of every
other listener. -/
def Rrel (l' : Listener) (s1 s2 : PEState) : Prop :=
  s1.messageHistory = s2.messageHistory ∧
  s1.serverCurrentID = s2.serverCurrentID ∧
  countAgree l' s1.dataListeners s2.dataListeners

theorem countAgree_append (l' : Listener) (xs ys zs : List Listener)
    (h : countAgree l' xs ys) : countAgree l' (xs ++ zs) (ys ++ zs) := by
  intro x hx
  rw [List.count_append, List.count_append, h x hx]

theorem countAgree_erase (l' : Listener) (xs ys : List Listener)
    (h : countAgree l' xs ys) (m : Listener) :
    countAgree l' (xs.erase m) (ys.erase m) := by
  intro x hx
  by_cases hxm : x = m
  · subst hxm
    rw [List.count_erase_self, List.count_erase_self, h x hx]
  · rw [List.count_erase_of_ne hxm, List.count_erase_of_ne hxm, h x hx]

/-- One step preserves `Rrel` and, for any listener other than `l'`,
produces identical deliveries in related states. -/
theorem step_sim (specs : Specs) (l' l : Listener) (hl : l ≠ l')
    (s1 s2 : PEState) (hR : Rrel l' s1 s2) (op : Op) :
    Rrel l' (step specs s1 op).state (step specs s2 op).state ∧
    outputsTo (step specs s1 op).outputs l =
      outputsTo (step specs s2 op).outputs l := by
  obtain ⟨hh, hc, hcount⟩ := hR
  cases op with
  | emitSource e args =>
    rcases h1 : lookupSpec specs e with _ | spec
    · simp only [step, h1]
      exact ⟨⟨hh, hc, hcount⟩, trivial⟩
    · rcases h2 : runHandler e spec args with _ | s
      · simp only [step, h1, h2]
        exact ⟨⟨hh, hc, hcount⟩, trivial⟩
      · simp only [step, h1, h2]
        constructor
        · refine ⟨?_, ?_, ?_⟩
          · show arraySet s1.messageHistory s1.serverCurrentID
                ("id: " ++ toString s1.serverCurrentID ++ "\n" ++ s) =
              arraySet s2.messageHistory s2.serverCurrentID
                ("id: " ++ toString s2.serverCurrentID ++ "\n" ++ s)
            rw [hh, hc]
          · show s1.serverCurrentID + 1 = s2.serverCurrentID + 1
            rw [hc]
          · exact hcount
        · show outputsTo (s1.dataListeners.map fun m =>
              (m, some ("id: " ++ toString s1.serverCurrentID ++ "\n" ++ s))) l =
            outputsTo (s2.dataListeners.map fun m =>
              (m, some ("id: " ++ toString s2.serverCurrentID ++ "\n" ++ s))) l
          rw [outputsTo_map_const, outputsTo_map_const, hcount l hl, hc]
  | addListener ev m =>
    constructor
    · refine ⟨hh, hc, ?_⟩
      show countAgree l'
        (if ev = "data" then s1.dataListeners ++ [m] else s1.dataListeners)
        (if ev = "data" then s2.dataListeners ++ [m] else s2.dataListeners)
      by_cases hev : ev = "data"
      · rw [if_pos hev, if_pos hev]
        exact countAgree_append l' _ _ _ hcount
      · rw [if_neg hev, if_neg hev]
        exact hcount
    · show outputsTo (replayFor s1 ev m) l = outputsTo (replayFor s2 ev m) l
      unfold replayFor
      rw [hh]
  | removeListener m =>
    exact ⟨⟨hh, hc, countAgree_erase l' _ _ hcount m⟩, rfl⟩

/-- A whole run preserves `Rrel` and produces identical deliveries to any
listener other than `l'` from related states. -/
theorem run_sim (specs : Specs) (l' l : Listener) (hl : l ≠ l') :
    ∀ (ops : List Op) (s1 s2 : PEState), Rrel l' s1 s2 →
      Rrel l' (run specs s1 ops).state (run specs s2 ops).state ∧
      outputsTo (run specs s1 ops).outputs l =
        outputsTo (run specs s2 ops).outputs l := by
  intro ops
  induction ops with
  | nil => intro s1 s2 hR; exact ⟨hR, rfl⟩
  | cons op ops ih =>
    intro s1 s2 hR
    obtain ⟨hstep, hout⟩ := step_sim specs l' l hl s1 s2 hR op
    obtain ⟨hrest, houts⟩ := ih (step specs s1 op).state (step specs s2 op).state hstep
    refine ⟨hrest, ?_⟩
    show outputsTo ((step specs s1 op).outputs ++
        (run specs (step specs s1 op).state ops).outputs) l =
      outputsTo ((step specs s2 op).outputs ++
        (run specs (step specs s2 op).state ops).outputs) l
    rw [outputsTo_append, outputsTo_append, hout, houts]

/-- Runs compose over concatenation of stimulus lists. -/
theorem run_append (specs : Specs) :
    ∀ (xs ys : List Op) (st : PEState),
      run specs st (xs ++ ys) =
        { state := (run specs (run specs st xs).state ys).state
          outputs := (run specs st xs).outputs ++
            (run specs (run specs st xs).state ys).outputs
          ids := (run specs st xs).ids ++
            (run specs (run specs st xs).state ys).ids } := by
  intro xs
  induction xs with
  | nil => intro ys st; rfl
  | cons x xs ih =>
    intro ys st
    have hL : run specs st ((x :: xs) ++ ys) =
        { state := (run specs (step specs st x).state (xs ++ ys)).state
          outputs := (step specs st x).outputs ++
            (run specs (step specs st x).state (xs ++ ys)).outputs
          ids := (step specs st x).ids ++
            (run specs (step specs st x).state (xs ++ ys)).ids } := rfl
    have hC : run specs st (x :: xs) =
        { state := (run specs (step specs st x).state xs).state
          outputs := (step specs st x).outputs ++
            (run specs (step specs st x).state xs).outputs
          ids := (step specs st x).ids ++
            (run specs (step specs st x).state xs).ids } := rfl
    rw [hL, hC, ih ys (step specs st x).state]
    simp [List.append_assoc]

/-- Claim C6: inserting the registration of a new subscriber `l'` (with its
replay), or the removal of `l'`, anywhere into a run leaves the delivery
sequence of every other listener `l` — over the entire run — unchanged: no
missed, duplicated, or reordered deliveries; and neither registration nor
removal changes the history. -/
theorem subscriber_isolation (specs : Specs) (pre post : List Op)
    (l l' : Listener) (hne : l ≠ l') (ev : String) :
    deliveriesTo specs (pre ++ .addListener ev l' :: post) l =
      deliveriesTo specs (pre ++ post) l ∧
    deliveriesTo specs (pre ++ .removeListener l' :: post) l =
      deliveriesTo specs (pre ++ post) l ∧
    (run specs initState (pre ++ [.addListener ev l'])).state.messageHistory =
      (run specs initState pre).state.messageHistory ∧
    (run specs initState (pre ++ [.removeListener l'])).state.messageHistory =
      (run specs initState pre).state.messageHistory := by
  have hadd : Rrel l'
      (step specs (run specs initState pre).state (.addListener ev l')).state
      (run specs initState pre).state := by
    refine ⟨rfl, rfl, ?_⟩
    show countAgree l'
      (if ev = "data" then (run specs initState pre).state.dataListeners ++ [l']
        else (run specs initState pre).state.dataListeners)
      (run specs initState pre).state.dataListeners
    by_cases hev : ev = "data"
    · rw [if_pos hev]
      intro x hx
      rw [List.count_append, List.count_singleton', if_neg (fun e => hx e.symm),
        Nat.add_zero]
    · rw [if_neg hev]
      intro x _
      rfl
  have hrem : Rrel l'
      (step specs (run specs initState pre).state (.removeListener l')).state
      (run specs initState pre).state := by
    refine ⟨rfl, rfl, ?_⟩
    intro x hx
    exact List.count_erase_of_ne hx _
  have key : ∀ op : Op,
      outputsTo (step specs (run specs initState pre).state op).outputs l = [] →
      Rrel l' (step specs (run specs initState pre).state op).state
        (run specs initState pre).state →
      deliveriesTo specs (pre ++ op :: post) l =
        deliveriesTo specs (pre ++ post) l := by
    intro op hz hRr
    have h1 : outputsTo
        (run specs (run specs initState pre).state (op :: post)).outputs l =
        outputsTo (run specs (run specs initState pre).state post).outputs l := by
      show outputsTo
          ((step specs (run specs initState pre).state op).outputs ++
            (run specs (step specs (run specs initState pre).state op).state
              post).outputs) l = _
      rw [outputsTo_append, hz, List.nil_append]
      exact (run_sim specs l' l hne post _ _ hRr).2
    unfold deliveriesTo
    rw [run_append specs pre (op :: post) initState,
      run_append specs pre post initState]
    show outputsTo ((run specs initState pre).outputs ++
        (run specs (run specs initState pre).state (op :: post)).outputs) l =
      outputsTo ((run specs initState pre).outputs ++
        (run specs (run specs initState pre).state post).outputs) l
    rw [outputsTo_append, outputsTo_append, h1]
  have hist_of : ∀ op : Op,
      (step specs (run specs initState pre).state op).state.messageHistory =
        (run specs initState pre).state.messageHistory →
      (run specs initState (pre ++ [op])).state.messageHistory =
        (run specs initState pre).state.messageHistory := by
    intro op hmh
    rw [run_append specs pre [op] initState]
    show (step specs (run specs initState pre).state op).state.messageHistory = _
    exact hmh
  refine ⟨key (.addListener ev l') ?_ hadd, key (.removeListener l') ?_ hrem,
    hist_of (.addListener ev l') rfl, hist_of (.removeListener l') rfl⟩
  · show outputsTo (replayFor (run specs initState pre).state ev l') l = []
    unfold replayFor
    by_cases hev : ev = "data"
    · rw [if_pos hev]
      exact outputsTo_replay_ne _ l' l (fun e => hne e.symm)
    · rw [if_neg hev]
      rfl
  · rfl

/-- Claim C6 witness: with a frame already committed and listener `0` already
registered, inserting the registration of listener `1` before a further
commit does not change what listener `0` receives. -/
theorem subscriber_isolation_witness :
    (⟨0, none, none⟩ : Listener) ≠ (⟨1, none, none⟩ : Listener) ∧
    deliveriesTo [("test", EventSpec.tru)]
        ([.emitSource "test" [.str "a"], .addListener "data" ⟨0, none, none⟩] ++
          .addListener "data" (⟨1, none, none⟩ : Listener) ::
            [.emitSource "test" [.str "b"]])
        ⟨0, none, none⟩ =
      deliveriesTo [("test", EventSpec.tru)]
        ([.emitSource "test" [.str "a"], .addListener "data" ⟨0, none, none⟩] ++
          [.emitSource "test" [.str "b"]])
        ⟨0, none, none⟩ :=
  ⟨by decide,
    (subscriber_isolation [("test", EventSpec.tru)]
      [.emitSource "test" [.str "a"], .addListener "data" ⟨0, none, none⟩]
      [.emitSource "test" [.str "b"]]
      ⟨0, none, none⟩ ⟨1, none, none⟩ (by decide) "data").1⟩

end Nudge
